import Mathlib

/-!
Verification development for the libconveyor buffered I/O engine.

The definitions below are a shallow embedding of the C++ sources:

* `RingBuffer` and its operations follow
  `src/include/libconveyor/detail/ring_buffer.h` (which also matches the
  `RingBuffer` embedded in `src/conveyor.cpp`, whose `write`/`read`/`clear`
  are textually identical; `resize` and `peek_at` exist only in the header).
* `ConveyorState`, `conveyor_create`, `conveyor_write`, `conveyor_read`,
  `conveyor_lseek`, `conveyor_flush`, `writeWorkerStep` and
  `readWorkerStep` follow `src/conveyor.cpp`.  The worker threads are
  modelled by explicit step functions; a producer-side condition-variable
  wait that can only be satisfied by the worker running is modelled by
  running the corresponding worker step at that point.  Loops whose
  termination depends on the scheduler are given explicit fuel.
* Bytes are modelled as `Nat`, byte regions as `List Nat`, `memcpy` into a
  region as `listWrite`, and the backing store behind the three
  `storage_operations_t` callbacks as a parameter `StorageOps σ`.
-/

namespace Conveyor

/-- Model of `memcpy(dst.data() + off, src.data(), src.length)`: overwrite
the slice of `dst` starting at `off` with `src` (meaningful when
`off + src.length ≤ dst.length`, which is the case at every call site). -/
def listWrite (dst : List Nat) (off : Nat) (src : List Nat) : List Nat :=
  dst.take off ++ src ++ dst.drop (off + src.length)

/-- Ring buffer state, mirroring the fields of `libconveyor::RingBuffer`
(`std::vector<char> buffer; size_t capacity, head, tail, size`). -/
structure RingBuffer where
  buffer : List Nat
  capacity : Nat
  head : Nat
  tail : Nat
  size : Nat
  deriving Repr, DecidableEq

namespace RingBuffer

/-- The constructor `RingBuffer(size_t cap) : capacity(cap), buffer(cap)`
(a freshly allocated `std::vector<char>` of length `cap` is zero-filled). -/
def init (cap : Nat) : RingBuffer :=
  { buffer := List.replicate cap 0, capacity := cap, head := 0, tail := 0, size := 0 }

/-- `RingBuffer::write(const char* data, size_t len)`.  Returns the number of
bytes appended together with the updated buffer.  Mirrors the source
line by line: it appends `min(len, capacity - size)` bytes at `head`,
wrapping once at `capacity`. -/
def write (rb : RingBuffer) (data : List Nat) (len : Nat) : Nat × RingBuffer :=
  if len = 0 then (0, rb) else
  let bytes_to_write := min len (rb.capacity - rb.size)
  if bytes_to_write = 0 then (0, rb) else
  let first_chunk_len := min bytes_to_write (rb.capacity - rb.head)
  let buf1 := listWrite rb.buffer rb.head (data.take first_chunk_len)
  let buf2 :=
    if first_chunk_len < bytes_to_write then
      listWrite buf1 0 ((data.drop first_chunk_len).take (bytes_to_write - first_chunk_len))
    else buf1
  (bytes_to_write,
   { rb with buffer := buf2,
             head := (rb.head + bytes_to_write) % rb.capacity,
             size := rb.size + bytes_to_write })

/-- `RingBuffer::read(char* data, size_t len)`.  Returns the bytes consumed
(the content `memcpy`ed into `data`) together with the updated buffer. -/
def read (rb : RingBuffer) (len : Nat) : List Nat × RingBuffer :=
  if len = 0 then ([], rb) else
  let bytes_to_read := min len rb.size
  if bytes_to_read = 0 then ([], rb) else
  let first_chunk_len := min bytes_to_read (rb.capacity - rb.tail)
  let out := (rb.buffer.drop rb.tail).take first_chunk_len
             ++ rb.buffer.take (bytes_to_read - first_chunk_len)
  (out,
   { rb with tail := (rb.tail + bytes_to_read) % rb.capacity,
             size := rb.size - bytes_to_read })

/-- `RingBuffer::clear()` resets the indices and the size (the byte region
itself is left as is). -/
def clear (rb : RingBuffer) : RingBuffer :=
  { rb with head := 0, tail := 0, size := 0 }

/-- `RingBuffer::resize(size_t new_capacity)` from the header: grow-only
reallocation that unrolls the circular contents into a contiguous
zero-based region of the new buffer. -/
def resize (rb : RingBuffer) (new_capacity : Nat) : RingBuffer :=
  if new_capacity ≤ rb.capacity then rb else
  let new0 := List.replicate new_capacity 0
  let newBuf :=
    if 0 < rb.size then
      if rb.tail < rb.head then
        listWrite new0 0 ((rb.buffer.drop rb.tail).take rb.size)
      else
        listWrite new0 0
          ((rb.buffer.drop rb.tail).take (rb.capacity - rb.tail) ++ rb.buffer.take rb.head)
    else new0
  { buffer := newBuf, capacity := new_capacity, head := rb.size, tail := 0, size := rb.size }

/-- `RingBuffer::peek_at(size_t absolute_ring_pos, char* dest, size_t len)`:
copy `len` bytes starting at `absolute_ring_pos % capacity`, wrapping once,
without touching head/tail/size (the C++ method is `const`, so the buffer
state is unchanged by construction).  Returns the bytes copied into `dest`
and the return value (`len`). -/
def peek_at (rb : RingBuffer) (pos : Nat) (len : Nat) : List Nat × Nat :=
  let offset := pos % rb.capacity
  let first_chunk := min len (rb.capacity - offset)
  let out := (rb.buffer.drop offset).take first_chunk
             ++ (if first_chunk < len then rb.buffer.take (len - first_chunk) else [])
  (out, len)

/-- `available_space()` -/
def available_space (rb : RingBuffer) : Nat := rb.capacity - rb.size

/-- `available_data()` -/
def available_data (rb : RingBuffer) : Nat := rb.size

/-- `empty()` -/
def isEmpty (rb : RingBuffer) : Bool := rb.size = 0

/-- Structural invariant of a live ring buffer: the region length matches the
capacity, the used size is bounded by the capacity, both indices are in
range, and `head` sits `size` positions (mod capacity) after `tail`. -/
def Valid (rb : RingBuffer) : Prop :=
  rb.buffer.length = rb.capacity ∧
  rb.size ≤ rb.capacity ∧
  rb.head < rb.capacity ∧
  rb.tail < rb.capacity ∧
  rb.head = (rb.tail + rb.size) % rb.capacity

instance (rb : RingBuffer) : Decidable rb.Valid := by
  unfold Valid; infer_instance

/-- The logical byte sequence held by the ring: the `size` bytes starting at
`tail`, wrapping at `capacity`. -/
def contents (rb : RingBuffer) : List Nat :=
  (List.range rb.size).map (fun i => rb.buffer.getD ((rb.tail + i) % rb.capacity) 0)

end RingBuffer

/-! ## The conveyor engine (`src/conveyor.cpp`) -/

/-- Model of `storage_operations_t`: the three backing-store callbacks.  The
backing store itself is an abstract state `σ` threaded through the calls.
`write s data` returns the `ssize_t` result and the new store;
`read s n` returns the bytes read (empty list = EOF, mirroring a zero
return) and the new store; `lseek s off whence` returns the new absolute
offset (negative on failure) and the new store. -/
structure StorageOps (σ : Type) where
  write : σ → List Nat → Int × σ
  read : σ → Nat → List Nat × σ
  lseek : σ → Int → Nat → Int × σ

/-- The fields of `libconveyor::ConveyorImpl` that carry engine state.  The
mutexes, condition variables and the worker `std::thread` handles are
concurrency plumbing modelled by the explicit worker-step functions below;
`write_buffer_needs_flush`, `read_worker_needs_fill` and the stop flags only
drive those condition variables.  Open-flag constants use their Linux
values: `O_RDONLY = 0`, `O_WRONLY = 1`, `O_RDWR = 2`, `O_ACCMODE = 3`,
`O_APPEND = 1024`; `SEEK_SET = 0`, `SEEK_CUR = 1`, `SEEK_END = 2`. -/
structure ConveyorState where
  flags : Nat
  write_buffer_enabled : Bool
  read_buffer_enabled : Bool
  write_buffer : RingBuffer
  read_buffer : RingBuffer
  read_buffer_stale : Bool
  read_eof_flag : Bool
  current_file_offset : Int
  current_pos_in_storage : Int
  deriving Repr, DecidableEq

/-- `conveyor_create(handle, flags, ops, write_buffer_size, read_buffer_size)`:
direction enablement is computed from `flags & O_ACCMODE` alone, and each
ring is allocated at its requested capacity. -/
def conveyor_create (flags : Nat) (write_buffer_size read_buffer_size : Nat) : ConveyorState :=
  let access_mode := flags &&& 3
  { flags := flags
    write_buffer_enabled := access_mode == 1 || access_mode == 2
    read_buffer_enabled := access_mode == 0 || access_mode == 2
    write_buffer := RingBuffer.init write_buffer_size
    read_buffer := RingBuffer.init read_buffer_size
    read_buffer_stale := false
    read_eof_flag := false
    current_file_offset := 0
    current_pos_in_storage := 0 }

/-- One iteration of `ConveyorImpl::writeWorker` in which the worker holds
data: it drains the whole ring into its local `temp_flush_buffer`
(releasing the ring space immediately), then — outside the lock — performs
the `O_APPEND` reseek if requested and calls `ops.write`; a positive result
advances `current_pos_in_storage`, any other result is ignored. -/
def writeWorkerStep {σ : Type} (ops : StorageOps σ) (st : ConveyorState) (s : σ) :
    ConveyorState × σ :=
  let bytes_to_flush := st.write_buffer.available_data
  if bytes_to_flush = 0 then (st, s) else
  let (temp, wb') := st.write_buffer.read bytes_to_flush
  let s1 := if st.flags &&& 1024 ≠ 0 then (ops.lseek s 0 2).2 else s
  let (written, s2) := ops.write s1 temp
  ({ st with write_buffer := wb',
             current_pos_in_storage :=
               if 0 < written then st.current_pos_in_storage + written
               else st.current_pos_in_storage }, s2)

/-- The producer loop of `conveyor_write`: while bytes remain, wait until the
ring has space (the wait can only be satisfied by the write worker draining
the ring, modelled by running `writeWorkerStep`), then append as much as
fits, advancing `current_file_offset` by the bytes accepted.  `fuel` bounds
the number of loop iterations (the C++ loop has no bound; it spins between
the condition variable and the worker). -/
def writeLoop {σ : Type} (ops : StorageOps σ) :
    Nat → ConveyorState → σ → List Nat → Int → Int × ConveyorState × σ
  | 0, st, s, _, acc => (acc, st, s)
  | fuel + 1, st, s, pending, acc =>
    if pending.isEmpty then (acc, st, s)
    else if st.write_buffer.available_space = 0 then
      let (st', s') := writeWorkerStep ops st s
      writeLoop ops fuel st' s' pending acc
    else
      let (n, wb') := st.write_buffer.write pending pending.length
      let st' := { st with write_buffer := wb',
                           current_file_offset := st.current_file_offset + (n : Int) }
      writeLoop ops fuel st' s (pending.drop n) (acc + (n : Int))

/-- `conveyor_write(conv, buf, count)`: fails with `EBADF` (−1) when the
write direction is disabled; otherwise runs the producer loop and finally —
on a read-write engine — clears the read ring and marks it stale. -/
def conveyor_write {σ : Type} (ops : StorageOps σ) (st : ConveyorState) (s : σ)
    (data : List Nat) : Int × ConveyorState × σ :=
  if st.write_buffer_enabled then
    let (acc, st1, s1) := writeLoop ops (2 * data.length + 2) st s data 0
    let st2 :=
      if st1.read_buffer_enabled = true ∧ st1.flags &&& 2 ≠ 0 then
        { st1 with read_buffer := st1.read_buffer.clear, read_buffer_stale := true }
      else st1
    (acc, st2, s1)
  else (-1, st, s)

/-- One iteration of `ConveyorImpl::readWorker` in which the worker was
signalled: clear the ring if stale, then, if there is space, reposition the
backing store when `current_pos_in_storage` disagrees with the cached
window, read up to `available_space` bytes, append them to the read ring
(zero bytes sets the EOF flag). -/
def readWorkerStep {σ : Type} (ops : StorageOps σ) (st : ConveyorState) (s : σ) :
    ConveyorState × σ :=
  let st :=
    if st.read_buffer_stale then
      { st with read_buffer := st.read_buffer.clear, read_buffer_stale := false }
    else st
  if 0 < st.read_buffer.available_space then
    let s :=
      if st.current_pos_in_storage ≠ st.current_file_offset + (st.read_buffer.available_data : Int)
      then (ops.lseek s st.current_pos_in_storage 0).2
      else s
    let (bytes, s') := ops.read s st.read_buffer.available_space
    if 0 < bytes.length then
      ({ st with read_buffer := (st.read_buffer.write bytes bytes.length).2,
                 current_pos_in_storage := st.current_pos_in_storage + (bytes.length : Int) }, s')
    else
      ({ st with read_eof_flag := true }, s')
  else (st, s)

/-- One delivery step of the `conveyor_read` consumer loop: consume
`min(remaining, available_data)` bytes from the read ring and advance the
logical offset. -/
def readChunk (st : ConveyorState) (remaining : Nat) : List Nat × ConveyorState :=
  let btr := min remaining st.read_buffer.available_data
  let (chunk, rb') := st.read_buffer.read btr
  (chunk, { st with read_buffer := rb',
                    current_file_offset := st.current_file_offset + (btr : Int) })

/-- The consumer loop of `conveyor_read`: while bytes remain, if the cache is
empty then stop at EOF, otherwise signal the read worker (modelled by
running `readWorkerStep`) and stop if it produced nothing; then deliver a
chunk from the cache. -/
def readLoop {σ : Type} (ops : StorageOps σ) :
    Nat → ConveyorState → σ → Nat → List Nat → List Nat × ConveyorState × σ
  | 0, st, s, _, acc => (acc, st, s)
  | fuel + 1, st, s, remaining, acc =>
    if remaining = 0 then (acc, st, s)
    else if st.read_buffer.isEmpty then
      if st.read_eof_flag then (acc, st, s)
      else
        let (st1, s1) := readWorkerStep ops st s
        if st1.read_buffer.available_data = 0 then (acc, st1, s1)
        else
          let (chunk, st2) := readChunk st1 remaining
          readLoop ops fuel st2 s1 (remaining - chunk.length) (acc ++ chunk)
    else
      let (chunk, st2) := readChunk st remaining
      readLoop ops fuel st2 s (remaining - chunk.length) (acc ++ chunk)

/-- `conveyor_read(conv, buf, count)`: fails with `EBADF` (−1) when the read
direction is disabled; otherwise returns the delivered byte count and the
bytes placed in the caller's buffer. -/
def conveyor_read {σ : Type} (ops : StorageOps σ) (st : ConveyorState) (s : σ)
    (count : Nat) : Int × List Nat × ConveyorState × σ :=
  if st.read_buffer_enabled then
    let (bytes, st', s') := readLoop ops (2 * count + 2) st s count []
    ((bytes.length : Int), bytes, st', s')
  else (-1, [], st, s)

/-- `conveyor_lseek(conv, offset, whence)`: calls the backing-store `lseek`
and, whenever the result differs from `LIBCONVEYOR_ERROR` (−1), clears the
read ring (marking it stale and resetting EOF), clears the write ring, and
sets both tracked offsets to the returned position.  On a −1 result the
engine state is left untouched. -/
def conveyor_lseek {σ : Type} (ops : StorageOps σ) (st : ConveyorState) (s : σ)
    (offset : Int) (whence : Nat) : Int × ConveyorState × σ :=
  let (new_pos, s') := ops.lseek s offset whence
  if new_pos ≠ -1 then
    let st1 :=
      if st.read_buffer_enabled then
        { st with read_buffer := st.read_buffer.clear,
                  read_buffer_stale := true, read_eof_flag := false }
      else st
    let st2 :=
      if st1.write_buffer_enabled then { st1 with write_buffer := st1.write_buffer.clear }
      else st1
    (new_pos,
     { st2 with current_file_offset := new_pos, current_pos_in_storage := new_pos }, s')
  else (new_pos, st, s')

/-- The wait inside `conveyor_flush`: the caller blocks until the ring is
empty, which only the write worker can bring about; modelled by iterating
`writeWorkerStep`. -/
def flushLoop {σ : Type} (ops : StorageOps σ) : Nat → ConveyorState → σ → ConveyorState × σ
  | 0, st, s => (st, s)
  | fuel + 1, st, s =>
    if st.write_buffer.isEmpty then (st, s)
    else
      let (st', s') := writeWorkerStep ops st s
      flushLoop ops fuel st' s'

/-- `conveyor_flush(conv)`: a no-op returning 0 on a write-disabled engine;
otherwise, if the ring holds data, request a flush and wait until the ring
is empty; always returns 0. -/
def conveyor_flush {σ : Type} (ops : StorageOps σ) (st : ConveyorState) (s : σ) :
    Int × ConveyorState × σ :=
  if st.write_buffer_enabled then
    if 0 < st.write_buffer.available_data then
      let (st', s') := flushLoop ops (st.write_buffer.size + 1) st s
      (0, st', s')
    else (0, st, s)
  else (0, st, s)

/-! ## Concrete backing stores used to evaluate the engine

`FileStore` models a seekable file as its byte contents plus a file
position, with the stream semantics of the mock storages in `src/test`:
`write` overwrites (extending with zeros past the end) at the current
position, `read` returns the bytes available at the current position (none
at or past the end, i.e. EOF), and `lseek` implements `SEEK_SET`,
`SEEK_CUR`, `SEEK_END`. -/

/-- Overwrite `c` starting at position `p` with `data`, zero-extending `c`
first when `p` lies past its end. -/
def listOverwrite (c : List Nat) (p : Nat) (data : List Nat) : List Nat :=
  c.take p ++ List.replicate (p - c.length) 0 ++ data ++ c.drop (p + data.length)

/-- A seekable in-memory file: contents and current position. -/
def FileStore : Type := List Nat × Int

/-- Backing store with the semantics of the test-suite mock storage. -/
def fileOps : StorageOps FileStore where
  write := fun s data =>
    ((data.length : Int), (listOverwrite s.1 s.2.toNat data, s.2 + (data.length : Int)))
  read := fun s n =>
    let bytes := (s.1.drop s.2.toNat).take n
    (bytes, (s.1, s.2 + (bytes.length : Int)))
  lseek := fun s off whence =>
    if whence = 0 then (off, (s.1, off))
    else if whence = 1 then (s.2 + off, (s.1, s.2 + off))
    else ((s.1.length : Int) + off, (s.1, (s.1.length : Int) + off))

/-- Backing store whose `write` always fails with −1 (`errno = EIO` in the
test-suite mock), while `read` reports EOF and `lseek` succeeds. -/
def eioOps : StorageOps Unit where
  write := fun s _ => (-1, s)
  read := fun s _ => ([], s)
  lseek := fun s off _ => (off, s)

/-- Backing store whose `lseek` fails with the negative value −2 (a negative
error return that is not `LIBCONVEYOR_ERROR`). -/
def negTwoOps : StorageOps Unit where
  write := fun s data => ((data.length : Int), s)
  read := fun s _ => ([], s)
  lseek := fun s _ _ => (-2, s)

/-- Backing store whose `lseek` fails with −1 (`LIBCONVEYOR_ERROR`). -/
def failSeekOps : StorageOps Unit where
  write := fun s data => ((data.length : Int), s)
  read := fun s _ => ([], s)
  lseek := fun s _ _ => (-1, s)

/-! ## Interleaving machine for `conveyor_flush` against the write worker

`conveyor_flush` waits on `write_cv_producer` with the predicate
`write_buffer.empty() || write_worker_stop_flag`.  The write worker
(`ConveyorImpl::writeWorker`) drains the ring into its local
`temp_flush_buffer` *under the lock*, notifies `write_cv_producer`, and
only then releases the lock and calls `ops.write`.  `FlushSys` captures
exactly the shared data relevant to that protocol, and `FlushStep` has one
transition per lock-protected code region, so an interleaved execution of
the client thread and the worker thread is a `FlushStep` chain. -/

structure FlushSys where
  /-- logical contents of `write_buffer` (the write ring) -/
  ring : List Nat
  /-- the worker's `temp_flush_buffer` when it has drained the ring but its
  `ops.write` call has not yet completed -/
  workerTemp : Option (List Nat)
  /-- bytes the backing store has received through `ops.write`, in order -/
  storage : List Nat
  /-- bytes accepted by `conveyor_write` and counted in its return values -/
  accepted : List Nat
  /-- a `conveyor_flush` caller is blocked in `write_cv_producer.wait` -/
  flushWaiting : Bool
  /-- a `conveyor_flush` call has returned 0 -/
  flushReturned : Bool
  deriving Repr, DecidableEq

inductive FlushStep : FlushSys → FlushSys → Prop
  /-- `conveyor_write` appends bytes to the ring under the write mutex and
  counts them in its return value. -/
  | clientWrite (sys : FlushSys) (data : List Nat) :
      FlushStep sys { sys with ring := sys.ring ++ data, accepted := sys.accepted ++ data }
  /-- `conveyor_flush` finds `available_data() > 0`, sets
  `write_buffer_needs_flush`, notifies the worker and blocks in
  `write_cv_producer.wait`. -/
  | flushCall (sys : FlushSys) (h : sys.ring ≠ []) :
      FlushStep sys { sys with flushWaiting := true }
  /-- the wait predicate `write_buffer.empty()` holds, so the blocked
  `conveyor_flush` wakes and returns 0. -/
  | flushReturn (sys : FlushSys) (hw : sys.flushWaiting = true) (he : sys.ring = []) :
      FlushStep sys { sys with flushWaiting := false, flushReturned := true }
  /-- the worker, under the write mutex, reads the whole ring into
  `temp_flush_buffer` (emptying the ring) and notifies
  `write_cv_producer`, then releases the lock; its `ops.write` call has
  not yet run. -/
  | workerDrain (sys : FlushSys) (h : sys.ring ≠ []) (hw : sys.workerTemp = none) :
      FlushStep sys { sys with ring := [], workerTemp := some sys.ring }
  /-- the worker's `ops.write(handle, temp_flush_buffer.data(), n)` call
  completes and the bytes reach the backing store. -/
  | workerDeliver (sys : FlushSys) (temp : List Nat) (h : sys.workerTemp = some temp) :
      FlushStep sys { sys with workerTemp := none, storage := sys.storage ++ temp }

/-- The engine right after `conveyor_create`: empty ring, idle worker, no
bytes accepted or delivered, no flush in progress. -/
def flushInit : FlushSys :=
  { ring := [], workerTemp := none, storage := [], accepted := [],
    flushWaiting := false, flushReturned := false }

/-- The state reached by: client writes one byte 7, a flush is issued, the
worker drains the ring into `temp_flush_buffer`, and the flush caller wakes
and returns — all before the worker's `ops.write` call runs. -/
def flushBad : FlushSys :=
  { ring := [], workerTemp := some [7], storage := [], accepted := [7],
    flushWaiting := false, flushReturned := true }

/-! ## Concrete engine runs used when settling the claims -/

/-- C2 run, step 1: `O_RDWR` engine with 4-byte rings over an empty file;
`conveyor_write` of the single byte 7. -/
def seekRunWrite : Int × ConveyorState × FileStore :=
  conveyor_write fileOps (conveyor_create 2 4 4) (([], 0) : FileStore) [7]

/-- C2 run, step 2: `conveyor_lseek(0, SEEK_SET)` right after the write. -/
def seekRunSeek : Int × ConveyorState × FileStore :=
  conveyor_lseek fileOps seekRunWrite.2.1 seekRunWrite.2.2 0 0

/-- C2 run, step 3: `conveyor_flush` after the seek. -/
def seekRunFlush : Int × ConveyorState × FileStore :=
  conveyor_flush fileOps seekRunSeek.2.1 seekRunSeek.2.2

/-- C3 run, step 1: `O_RDWR` engine with 8-byte rings over an empty file;
`conveyor_write` of the bytes 5, 6, 7. -/
def rawRunWrite : Int × ConveyorState × FileStore :=
  conveyor_write fileOps (conveyor_create 2 8 8) (([], 0) : FileStore) [5, 6, 7]

/-- C3 run, step 2: `conveyor_lseek(0, SEEK_SET)`. -/
def rawRunSeek : Int × ConveyorState × FileStore :=
  conveyor_lseek fileOps rawRunWrite.2.1 rawRunWrite.2.2 0 0

/-- C3 run, step 3: `conveyor_read` of 3 bytes. -/
def rawRunRead : Int × List Nat × ConveyorState × FileStore :=
  conveyor_read fileOps rawRunSeek.2.1 rawRunSeek.2.2 3

/-- C4 run, step 1: `O_RDWR` engine whose backing-store `write` always fails
with `EIO`; `conveyor_write` of two bytes. -/
def eioRunWrite1 : Int × ConveyorState × Unit :=
  conveyor_write eioOps (conveyor_create 2 4 4) () [1, 2]

/-- C4 run, step 2: the write worker picks up the two bytes and its
`ops.write` fails with `EIO` (returns −1). -/
def eioRunWorker : ConveyorState × Unit :=
  writeWorkerStep eioOps eioRunWrite1.2.1 eioRunWrite1.2.2

/-- C4 run, step 3: a further `conveyor_write` after the failure. -/
def eioRunWrite2 : Int × ConveyorState × Unit :=
  conveyor_write eioOps eioRunWorker.1 eioRunWorker.2 [3, 4]

/-- C4 run, step 4: `conveyor_flush` after the failure. -/
def eioRunFlush : Int × ConveyorState × Unit :=
  conveyor_flush eioOps eioRunWrite2.2.1 eioRunWrite2.2.2

/-- C4 run, step 5: `conveyor_lseek(5, SEEK_SET)` after the failure. -/
def eioRunLseek : Int × ConveyorState × Unit :=
  conveyor_lseek eioOps eioRunFlush.2.1 eioRunFlush.2.2 5 0

/-- C4 run, step 3': a `conveyor_read` directly after the failed worker
write. -/
def eioRunRead : Int × List Nat × ConveyorState × Unit :=
  conveyor_read eioOps eioRunWorker.1 eioRunWorker.2 1

/-- C6 run, step 1: `O_RDWR` engine whose write ring holds 4 bytes;
`conveyor_write` of 5 bytes — strictly more than the ring capacity. -/
def bigRunWrite : Int × ConveyorState × FileStore :=
  conveyor_write fileOps (conveyor_create 2 4 8) (([], 0) : FileStore) [1, 2, 3, 4, 5]

/-- C6 run, step 2: `conveyor_flush` after the oversized write. -/
def bigRunFlush : Int × ConveyorState × FileStore :=
  conveyor_flush fileOps bigRunWrite.2.1 bigRunWrite.2.2

/-- C9 counterexample run, step 1: buffer one byte on an `O_RDWR` engine
whose backing-store `lseek` returns −2. -/
def negRunWrite : Int × ConveyorState × Unit :=
  conveyor_write negTwoOps (conveyor_create 2 4 4) () [7]

/-- C9 counterexample run, step 2: `conveyor_lseek`; the callback returns the
negative value −2, which is not `LIBCONVEYOR_ERROR`. -/
def negRunSeek : Int × ConveyorState × Unit :=
  conveyor_lseek negTwoOps negRunWrite.2.1 negRunWrite.2.2 0 0

/-- A concrete valid ring buffer (capacity 4, two live bytes wrapping the
end: contents 40, 10) used by the witnesses. -/
def sampleRing : RingBuffer :=
  { buffer := [10, 20, 30, 40], capacity := 4, head := 1, tail := 3, size := 2 }

/-! ## Helper lemmas about `listWrite` and list indexing -/

theorem listWrite_length (dst src : List Nat) (off : Nat)
    (h : off + src.length ≤ dst.length) :
    (listWrite dst off src).length = dst.length := by
  simp only [listWrite, List.length_append, List.length_take, List.length_drop]
  omega

theorem listWrite_getElem? (dst src : List Nat) (off k : Nat)
    (h : off + src.length ≤ dst.length) :
    (listWrite dst off src)[k]? =
      if off ≤ k ∧ k < off + src.length then src[k - off]? else dst[k]? := by
  unfold listWrite
  have hofflen : (dst.take off).length = off := by
    simp only [List.length_take]; omega
  have houter : (dst.take off ++ src).length = off + src.length := by
    simp only [List.length_append, hofflen]
  by_cases h1 : k < off
  · rw [if_neg (by omega)]
    rw [List.getElem?_append_left (by rw [houter]; omega)]
    rw [List.getElem?_append_left (by rw [hofflen]; omega)]
    exact List.getElem?_take_of_lt h1
  · by_cases h2 : k < off + src.length
    · rw [if_pos ⟨by omega, h2⟩]
      rw [List.getElem?_append_left (by rw [houter]; omega)]
      rw [List.getElem?_append_right (by rw [hofflen]; omega), hofflen]
    · rw [if_neg (by omega)]
      rw [List.getElem?_append_right (by rw [houter]; omega), houter]
      rw [List.getElem?_drop]
      congr 1
      omega

theorem listWrite_getD (dst src : List Nat) (off k d : Nat)
    (h : off + src.length ≤ dst.length) :
    (listWrite dst off src).getD k d =
      if off ≤ k ∧ k < off + src.length then src.getD (k - off) d else dst.getD k d := by
  simp only [List.getD_eq_getElem?_getD, listWrite_getElem? dst src off k h]
  split <;> rfl

theorem getD_take (l : List Nat) (n k d : Nat) (h : k < n) :
    (l.take n).getD k d = l.getD k d := by
  simp only [List.getD_eq_getElem?_getD, List.getElem?_take_of_lt h]

theorem getD_drop (l : List Nat) (n k d : Nat) :
    (l.drop n).getD k d = l.getD (n + k) d := by
  simp only [List.getD_eq_getElem?_getD, List.getElem?_drop]

theorem take_eq_map_range_getD (l : List Nat) (n : Nat) (h : n ≤ l.length) :
    l.take n = (List.range n).map (fun r => l.getD r 0) := by
  refine List.ext_getElem (by simp; omega) ?_
  intro k hk hk2
  simp only [List.length_take] at hk
  have hkn : k < n := by omega
  have hkl : k < l.length := by omega
  simp [List.getElem_take, List.getElem_range, List.getD_eq_getElem?_getD,
    List.getElem?_eq_getElem hkl]

/-! ## Validity preservation for the ring-buffer operations -/

theorem ring_write_valid (rb : RingBuffer) (data : List Nat) (len : Nat)
    (hv : rb.Valid) : ((rb.write data len).2).Valid := by
  obtain ⟨hbl, hsz, hh, ht, hht⟩ := hv
  have hc : 0 < rb.capacity := by omega
  simp only [RingBuffer.write]
  split
  · exact ⟨hbl, hsz, hh, ht, hht⟩
  · split
    · exact ⟨hbl, hsz, hh, ht, hht⟩
    · rename_i hl0 hb0
      dsimp only [RingBuffer.Valid]
      refine ⟨?_, by omega, Nat.mod_lt _ hc, ht, ?_⟩
      · have hlen1 : (listWrite rb.buffer rb.head
            (data.take (min (min len (rb.capacity - rb.size)) (rb.capacity - rb.head)))).length
            = rb.buffer.length := by
          apply listWrite_length
          simp only [List.length_take]
          omega
        split
        · rw [listWrite_length, hlen1, hbl]
          simp only [hlen1, hbl, List.length_take]
          omega
        · rw [hlen1, hbl]
      · rw [hht, Nat.mod_add_mod]
        congr 1
        omega

theorem ring_read_valid (rb : RingBuffer) (len : Nat)
    (hv : rb.Valid) : ((rb.read len).2).Valid := by
  obtain ⟨hbl, hsz, hh, ht, hht⟩ := hv
  have hc : 0 < rb.capacity := by omega
  simp only [RingBuffer.read]
  split
  · exact ⟨hbl, hsz, hh, ht, hht⟩
  · split
    · exact ⟨hbl, hsz, hh, ht, hht⟩
    · dsimp only [RingBuffer.Valid]
      refine ⟨hbl, by omega, hh, Nat.mod_lt _ hc, ?_⟩
      rw [Nat.mod_add_mod, hht]
      congr 1
      omega

theorem ring_clear_valid (rb : RingBuffer) (hb : rb.buffer.length = rb.capacity)
    (hc : 1 ≤ rb.capacity) : rb.clear.Valid := by
  unfold RingBuffer.clear RingBuffer.Valid
  dsimp only
  exact ⟨hb, by omega, by omega, by omega, by simp⟩

/-- Under the invariant, a strictly unwrapped buffer (`tail < head`) has its
live region inside `[tail, tail + size)` with no wrap. -/
theorem valid_unwrapped (rb : RingBuffer) (hv : rb.Valid) (hlt : rb.tail < rb.head) :
    rb.tail + rb.size < rb.capacity ∧ rb.head = rb.tail + rb.size := by
  obtain ⟨hbl, hsz, hh, ht, hht⟩ := hv
  rcases Nat.lt_or_ge (rb.tail + rb.size) rb.capacity with hA | hB
  · exact ⟨hA, by rw [hht]; exact Nat.mod_eq_of_lt hA⟩
  · exfalso
    have h2 : rb.tail + rb.size - rb.capacity < rb.capacity := by omega
    have : rb.head = rb.tail + rb.size - rb.capacity := by
      rw [hht, Nat.mod_eq_sub_mod hB]
      exact Nat.mod_eq_of_lt h2
    omega

/-- Under the invariant, a non-empty buffer with `head ≤ tail` wraps: the
live region runs to the end of the byte region and continues at its start. -/
theorem valid_wrapped (rb : RingBuffer) (hv : rb.Valid) (hge : rb.head ≤ rb.tail)
    (hpos : 0 < rb.size) :
    rb.capacity ≤ rb.tail + rb.size ∧ rb.head = rb.tail + rb.size - rb.capacity := by
  obtain ⟨hbl, hsz, hh, ht, hht⟩ := hv
  rcases Nat.lt_or_ge (rb.tail + rb.size) rb.capacity with hA | hB
  · exfalso
    have : rb.head = rb.tail + rb.size := by
      rw [hht]
      exact Nat.mod_eq_of_lt hA
    omega
  · have h2 : rb.tail + rb.size - rb.capacity < rb.capacity := by omega
    refine ⟨hB, ?_⟩
    rw [hht, Nat.mod_eq_sub_mod hB]
    exact Nat.mod_eq_of_lt h2

theorem ring_resize_valid (rb : RingBuffer) (nc : Nat) (hv : rb.Valid) :
    (rb.resize nc).Valid := by
  have hv' := hv
  obtain ⟨hbl, hsz, hh, ht, hht⟩ := hv'
  simp only [RingBuffer.resize]
  split
  · exact ⟨hbl, hsz, hh, ht, hht⟩
  · rename_i hgrow
    have hc : 0 < rb.capacity := by omega
    dsimp only [RingBuffer.Valid]
    refine ⟨?_, by omega, by omega, by omega, ?_⟩
    · split
      · rename_i hpos
        split
        · rw [listWrite_length]
          · simp
          · simp only [List.length_take, List.length_drop, List.length_replicate, hbl]
            omega
        · rename_i hge
          have hw := valid_wrapped rb hv (by omega) hpos
          rw [listWrite_length]
          · simp
          · simp only [List.length_append, List.length_take, List.length_drop,
              List.length_replicate, hbl]
            omega
      · simp
    · rw [Nat.zero_add, Nat.mod_eq_of_lt (by omega : rb.size < nc)]

/-! ## Content lemmas for the ring-buffer operations -/

/-- Pointwise description of the byte region after `RingBuffer::write`: the
first `memcpy` fills `[head, head + first_chunk)`, the second (wrap) fills
`[0, bytes_to_write - first_chunk)`, everything else is untouched. -/
theorem ring_write_buffer_getD (rb : RingBuffer) (data : List Nat) (len k : Nat)
    (hv : rb.Valid) (hl0 : ¬ len = 0) (hb0 : ¬ min len (rb.capacity - rb.size) = 0)
    (hdata : min len (rb.capacity - rb.size) ≤ data.length) :
    ((rb.write data len).2).buffer.getD k 0 =
      (if rb.head ≤ k ∧
          k < rb.head + min (min len (rb.capacity - rb.size)) (rb.capacity - rb.head)
       then data.getD (k - rb.head) 0
       else if k < min len (rb.capacity - rb.size)
                - min (min len (rb.capacity - rb.size)) (rb.capacity - rb.head)
       then data.getD (min (min len (rb.capacity - rb.size)) (rb.capacity - rb.head) + k) 0
       else rb.buffer.getD k 0) := by
  obtain ⟨hbl, hsz, hh, ht, hht⟩ := hv
  simp only [RingBuffer.write, if_neg hl0, if_neg hb0]
  set btw := min len (rb.capacity - rb.size) with hbtw
  set fcl := min btw (rb.capacity - rb.head) with hfcl
  have htake1 : (data.take fcl).length = fcl := by
    simp only [List.length_take]
    omega
  have hlen1 : (listWrite rb.buffer rb.head (data.take fcl)).length = rb.capacity := by
    rw [listWrite_length, hbl]
    rw [htake1, hbl]
    omega
  split
  · rename_i hwrap
    have hfcl_eq : fcl = rb.capacity - rb.head := by omega
    have htake2 : ((data.drop fcl).take (btw - fcl)).length = btw - fcl := by
      simp only [List.length_take, List.length_drop]
      omega
    rw [listWrite_getD _ _ _ _ _ (by rw [htake2, hlen1]; omega)]
    rw [htake2]
    by_cases hk2 : k < btw - fcl
    · rw [if_pos ⟨Nat.zero_le k, by omega⟩, Nat.sub_zero]
      rw [getD_take _ _ _ _ hk2, getD_drop]
      rw [if_neg (by omega), if_pos hk2]
    · rw [if_neg (by omega)]
      rw [listWrite_getD _ _ _ _ _ (by rw [htake1, hbl]; omega)]
      rw [htake1]
      by_cases hk1 : rb.head ≤ k ∧ k < rb.head + fcl
      · rw [if_pos hk1, if_pos hk1]
        rw [getD_take]
        omega
      · rw [if_neg hk1, if_neg hk1, if_neg hk2]
  · rename_i hnw
    have hfcl_eq : fcl = btw := by omega
    rw [listWrite_getD _ _ _ _ _ (by rw [htake1, hbl]; omega)]
    rw [htake1]
    by_cases hk1 : rb.head ≤ k ∧ k < rb.head + fcl
    · rw [if_pos hk1, if_pos hk1]
      rw [getD_take]
      omega
    · rw [if_neg hk1, if_neg hk1, if_neg (by omega)]

/-- `RingBuffer::write` appends the accepted bytes to the logical contents:
the live byte sequence afterwards is the old sequence followed by the first
`min(len, capacity - size)` bytes of the source. -/
theorem ring_write_contents (rb : RingBuffer) (data : List Nat) (len : Nat)
    (hv : rb.Valid)
    (hdata : min len (rb.capacity - rb.size) ≤ data.length) :
    ((rb.write data len).2).contents
      = rb.contents ++ data.take (min len (rb.capacity - rb.size)) := by
  have hvv := hv
  obtain ⟨hbl, hsz, hh, ht, hht⟩ := hvv
  by_cases hl0 : len = 0
  · subst hl0
    simp [RingBuffer.write]
  by_cases hb0 : min len (rb.capacity - rb.size) = 0
  · rw [hb0]
    simp only [RingBuffer.write, if_neg hl0, hb0, if_pos rfl]
    simp
  have hgetD := fun j => ring_write_buffer_getD rb data len j hv hl0 hb0 hdata
  have htail : ((rb.write data len).2).tail = rb.tail := by
    simp only [RingBuffer.write, if_neg hl0, if_neg hb0]
  have hsize : ((rb.write data len).2).size
      = rb.size + min len (rb.capacity - rb.size) := by
    simp only [RingBuffer.write, if_neg hl0, if_neg hb0]
  have hcap : ((rb.write data len).2).capacity = rb.capacity := by
    simp only [RingBuffer.write, if_neg hl0, if_neg hb0]
  unfold RingBuffer.contents
  rw [htail, hsize, hcap]
  rw [List.range_add, List.map_append]
  congr 1
  · apply List.map_congr_left
    intro i hi
    rw [List.mem_range] at hi
    rw [hgetD ((rb.tail + i) % rb.capacity)]
    rcases Nat.lt_or_ge (rb.tail + rb.size) rb.capacity with hA | hB
    · have hhead : rb.head = rb.tail + rb.size := by
        rw [hht]
        exact Nat.mod_eq_of_lt hA
      have hjeq : (rb.tail + i) % rb.capacity = rb.tail + i := Nat.mod_eq_of_lt (by omega)
      rw [hjeq, if_neg (by omega), if_neg (by omega)]
    · have hhead : rb.head = rb.tail + rb.size - rb.capacity := by
        rw [hht, Nat.mod_eq_sub_mod hB]
        exact Nat.mod_eq_of_lt (by omega)
      rcases Nat.lt_or_ge (rb.tail + i) rb.capacity with hC | hD
      · have hjeq : (rb.tail + i) % rb.capacity = rb.tail + i := Nat.mod_eq_of_lt hC
        rw [hjeq, if_neg (by omega), if_neg (by omega)]
      · have hjeq : (rb.tail + i) % rb.capacity = rb.tail + i - rb.capacity := by
          rw [Nat.mod_eq_sub_mod hD]
          exact Nat.mod_eq_of_lt (by omega)
        rw [hjeq, if_neg (by omega), if_neg (by omega)]
  · rw [List.map_map, take_eq_map_range_getD data _ (by omega)]
    apply List.map_congr_left
    intro r hr
    rw [List.mem_range] at hr
    simp only [Function.comp_apply]
    rw [hgetD ((rb.tail + (rb.size + r)) % rb.capacity)]
    rcases Nat.lt_or_ge (rb.tail + rb.size) rb.capacity with hA | hB
    · have hhead : rb.head = rb.tail + rb.size := by
        rw [hht]
        exact Nat.mod_eq_of_lt hA
      rcases Nat.lt_or_ge (rb.head + r) rb.capacity with hC | hD
      · have hjeq : (rb.tail + (rb.size + r)) % rb.capacity = rb.head + r :=
          by rw [Nat.mod_eq_of_lt (by omega)]; omega
        rw [hjeq, if_pos ⟨by omega, by omega⟩]
        have harg : rb.head + r - rb.head = r := by omega
        rw [harg]
      · have hjeq : (rb.tail + (rb.size + r)) % rb.capacity = rb.head + r - rb.capacity := by
          rw [Nat.mod_eq_sub_mod (by omega), Nat.mod_eq_of_lt (by omega)]
          omega
        rw [hjeq, if_neg (by omega), if_pos (by omega)]
        have harg : min (min len (rb.capacity - rb.size)) (rb.capacity - rb.head)
            + (rb.head + r - rb.capacity) = r := by omega
        rw [harg]
    · have hhead : rb.head = rb.tail + rb.size - rb.capacity := by
        rw [hht, Nat.mod_eq_sub_mod hB]
        exact Nat.mod_eq_of_lt (by omega)
      have hjeq : (rb.tail + (rb.size + r)) % rb.capacity = rb.head + r := by
        rw [Nat.mod_eq_sub_mod (by omega), Nat.mod_eq_of_lt (by omega)]
        omega
      rw [hjeq, if_pos ⟨by omega, by omega⟩]
      have harg : rb.head + r - rb.head = r := by omega
      rw [harg]

theorem range_drop (s n : Nat) :
    (List.range s).drop n = (List.range (s - n)).map (fun i => n + i) := by
  refine List.ext_getElem? (fun k => ?_)
  rcases Nat.lt_or_ge k (s - n) with hk | hk
  · rw [List.getElem?_drop, List.getElem?_map, List.getElem?_range hk,
      List.getElem?_range (by omega)]
    rfl
  · rw [List.getElem?_drop]
    rw [List.getElem?_eq_none_iff.mpr (by simp only [List.length_range]; omega),
      List.getElem?_eq_none_iff.mpr (by simp only [List.length_map, List.length_range]; omega)]

theorem contents_length (rb : RingBuffer) : rb.contents.length = rb.size := by
  simp [RingBuffer.contents]

theorem contents_take (rb : RingBuffer) (n : Nat) (hn : n ≤ rb.size) :
    rb.contents.take n
      = (List.range n).map (fun i => rb.buffer.getD ((rb.tail + i) % rb.capacity) 0) := by
  unfold RingBuffer.contents
  rw [← List.map_take, List.take_range, Nat.min_eq_left hn]

theorem contents_drop (rb : RingBuffer) (n : Nat) :
    rb.contents.drop n
      = (List.range (rb.size - n)).map
          (fun i => rb.buffer.getD ((rb.tail + (n + i)) % rb.capacity) 0) := by
  unfold RingBuffer.contents
  rw [← List.map_drop, range_drop, List.map_map]
  apply List.map_congr_left
  intro i _
  simp [Function.comp]

/-- `RingBuffer::read` consumes the first `min(len, size)` logical bytes:
the returned bytes are that leading segment of the contents and the buffer
afterwards holds the remaining suffix. -/
theorem ring_read_result (rb : RingBuffer) (len : Nat) (hv : rb.Valid) :
    (rb.read len).1 = rb.contents.take (min len rb.size) ∧
    ((rb.read len).2).contents = rb.contents.drop (min len rb.size) := by
  have hvv := hv
  obtain ⟨hbl, hsz, hh, ht, hht⟩ := hvv
  have hc : 0 < rb.capacity := by omega
  by_cases hl0 : len = 0
  · subst hl0
    simp [RingBuffer.read]
  by_cases hb0 : min len rb.size = 0
  · rw [hb0]
    simp only [RingBuffer.read, if_neg hl0, hb0, if_pos rfl]
    simp
  simp only [RingBuffer.read, if_neg hl0, if_neg hb0]
  set btr := min len rb.size with hbtr
  set fcl := min btr (rb.capacity - rb.tail) with hfcl
  constructor
  · rw [contents_take rb btr (by omega)]
    refine List.ext_getElem? (fun k => ?_)
    rcases Nat.lt_or_ge k btr with hk | hk
    · rw [List.getElem?_map, List.getElem?_range hk]
      simp only [Option.map_some']
      by_cases hkf : k < fcl
      · rw [List.getElem?_append_left
          (by simp only [List.length_take, List.length_drop]; omega)]
        rw [List.getElem?_take_of_lt hkf, List.getElem?_drop]
        have hmod : (rb.tail + k) % rb.capacity = rb.tail + k := Nat.mod_eq_of_lt (by omega)
        rw [hmod]
        have hbk : rb.tail + k < rb.buffer.length := by omega
        simp [List.getElem?_eq_getElem hbk, List.getD_eq_getElem?_getD]
      · have hfcl_eq : fcl = rb.capacity - rb.tail := by omega
        rw [List.getElem?_append_right
          (by simp only [List.length_take, List.length_drop]; omega)]
        have hlen : ((rb.buffer.drop rb.tail).take fcl).length = fcl := by
          simp only [List.length_take, List.length_drop]
          omega
        rw [hlen]
        rw [List.getElem?_take_of_lt (by omega)]
        have hmod : (rb.tail + k) % rb.capacity = k - fcl := by
          rw [Nat.mod_eq_sub_mod (by omega), Nat.mod_eq_of_lt (by omega)]
          omega
        rw [hmod]
        have hbk : k - fcl < rb.buffer.length := by omega
        simp [List.getElem?_eq_getElem hbk, List.getD_eq_getElem?_getD]
    · rw [List.getElem?_eq_none_iff.mpr
          (by simp only [List.length_append, List.length_take, List.length_drop]; omega),
        List.getElem?_eq_none_iff.mpr
          (by simp only [List.length_map, List.length_range]; omega)]
  · rw [contents_drop rb btr]
    unfold RingBuffer.contents
    dsimp only
    apply List.map_congr_left
    intro i hi
    rw [Nat.mod_add_mod, Nat.add_assoc]

/-- `RingBuffer::resize` with `new_capacity ≤ capacity` is an exact no-op
(the method returns immediately). -/
theorem ring_resize_noop (rb : RingBuffer) (nc : Nat) (h : nc ≤ rb.capacity) :
    rb.resize nc = rb := by
  unfold RingBuffer.resize
  rw [if_pos h]

/-- Growing `RingBuffer::resize` preserves the logical byte sequence: the two
`memcpy`s place the live region, in order, at the start of the new region. -/
theorem ring_resize_contents (rb : RingBuffer) (nc : Nat) (hv : rb.Valid)
    (hgrow : rb.capacity < nc) :
    (rb.resize nc).contents = rb.contents := by
  have hvv := hv
  obtain ⟨hbl, hsz, hh, ht, hht⟩ := hvv
  unfold RingBuffer.resize
  rw [if_neg (by omega)]
  unfold RingBuffer.contents
  dsimp only
  apply List.map_congr_left
  intro i hi
  rw [List.mem_range] at hi
  have hmod : (0 + i) % nc = i := by
    rw [Nat.zero_add]
    exact Nat.mod_eq_of_lt (by omega)
  rw [hmod]
  split
  · rename_i hpos
    split
    · rename_i hlt
      have hu := valid_unwrapped rb hv hlt
      have hsrc : ((rb.buffer.drop rb.tail).take rb.size).length = rb.size := by
        simp only [List.length_take, List.length_drop]
        omega
      rw [listWrite_getD _ _ _ _ _ (by simp only [hsrc, List.length_replicate]; omega)]
      rw [hsrc]
      rw [if_pos ⟨Nat.zero_le i, by omega⟩, Nat.sub_zero]
      rw [getD_take _ _ _ _ hi, getD_drop]
      have hmod2 : (rb.tail + i) % rb.capacity = rb.tail + i := Nat.mod_eq_of_lt (by omega)
      rw [hmod2]
    · rename_i hge
      have hw := valid_wrapped rb hv (by omega) hpos
      have hsrc : ((rb.buffer.drop rb.tail).take (rb.capacity - rb.tail)
          ++ rb.buffer.take rb.head).length = rb.size := by
        simp only [List.length_append, List.length_take, List.length_drop]
        omega
      rw [listWrite_getD _ _ _ _ _ (by simp only [hsrc, List.length_replicate]; omega)]
      rw [hsrc]
      rw [if_pos ⟨Nat.zero_le i, by omega⟩, Nat.sub_zero]
      have hlen1 : ((rb.buffer.drop rb.tail).take (rb.capacity - rb.tail)).length
          = rb.capacity - rb.tail := by
        simp only [List.length_take, List.length_drop]
        omega
      by_cases hic : i < rb.capacity - rb.tail
      · rw [List.getD_eq_getElem?_getD]
        rw [List.getElem?_append_left (by rw [hlen1]; omega)]
        rw [List.getElem?_take_of_lt hic, List.getElem?_drop]
        have hmod2 : (rb.tail + i) % rb.capacity = rb.tail + i :=
          Nat.mod_eq_of_lt (by omega)
        rw [hmod2, ← List.getD_eq_getElem?_getD]
      · rw [List.getD_eq_getElem?_getD]
        rw [List.getElem?_append_right (by rw [hlen1]; omega), hlen1]
        rw [List.getElem?_take_of_lt (by omega)]
        have hmod2 : (rb.tail + i) % rb.capacity = i - (rb.capacity - rb.tail) := by
          rw [Nat.mod_eq_sub_mod (by omega), Nat.mod_eq_of_lt (by omega)]
          omega
        rw [hmod2, ← List.getD_eq_getElem?_getD]
  · rename_i hpos
    omega

/-- `RingBuffer::peek_at` returns its `len` argument and copies exactly the
bytes at indices `(pos % capacity + i) % capacity` for `i < len`, wrapping
once; all accessed indices are inside the byte region. -/
theorem peek_at_result (rb : RingBuffer) (pos len : Nat)
    (hc : 1 ≤ rb.capacity) (hlen : len ≤ rb.capacity)
    (hbuf : rb.buffer.length = rb.capacity) :
    (rb.peek_at pos len).2 = len ∧
    (rb.peek_at pos len).1
      = (List.range len).map
          (fun i => rb.buffer.getD ((pos % rb.capacity + i) % rb.capacity) 0) := by
  refine ⟨rfl, ?_⟩
  unfold RingBuffer.peek_at
  dsimp only
  set off := pos % rb.capacity with hoff
  have hoff_lt : off < rb.capacity := Nat.mod_lt _ (by omega)
  set fc := min len (rb.capacity - off) with hfc
  have hlen_out : ((rb.buffer.drop off).take fc
      ++ (if fc < len then rb.buffer.take (len - fc) else [])).length = len := by
    simp only [List.length_append, List.length_take, List.length_drop]
    split
    · simp only [List.length_take]
      omega
    · simp only [List.length_nil]
      omega
  refine List.ext_getElem? (fun k => ?_)
  rcases Nat.lt_or_ge k len with hk | hk
  · rw [List.getElem?_map, List.getElem?_range hk]
    simp only [Option.map_some']
    by_cases hkf : k < fc
    · rw [List.getElem?_append_left
        (by simp only [List.length_take, List.length_drop]; omega)]
      rw [List.getElem?_take_of_lt hkf, List.getElem?_drop]
      have hmod : (off + k) % rb.capacity = off + k := Nat.mod_eq_of_lt (by omega)
      rw [hmod]
      have hbk : off + k < rb.buffer.length := by omega
      simp [List.getElem?_eq_getElem hbk, List.getD_eq_getElem?_getD]
    · rw [List.getElem?_append_right
        (by simp only [List.length_take, List.length_drop]; omega)]
      have hlen1 : ((rb.buffer.drop off).take fc).length = fc := by
        simp only [List.length_take, List.length_drop]
        omega
      rw [hlen1]
      rw [if_pos (by omega : fc < len)]
      rw [List.getElem?_take_of_lt (by omega)]
      have hmod : (off + k) % rb.capacity = k - fc := by
        rw [Nat.mod_eq_sub_mod (by omega), Nat.mod_eq_of_lt (by omega)]
        omega
      rw [hmod]
      have hbk : k - fc < rb.buffer.length := by omega
      simp [List.getElem?_eq_getElem hbk, List.getD_eq_getElem?_getD]
  · rw [List.getElem?_eq_none_iff.mpr (by rw [hlen_out]; omega),
      List.getElem?_eq_none_iff.mpr
        (by simp only [List.length_map, List.length_range]; omega)]

/-- An append that exactly fills the ring (the request covers at least the
free space) leaves `head = tail` and `size = capacity` — full, not empty. -/
theorem ring_write_fill (rb : RingBuffer) (data : List Nat) (len : Nat)
    (hv : rb.Valid) (hfill : rb.capacity - rb.size ≤ len) :
    ((rb.write data len).2).head = ((rb.write data len).2).tail ∧
    ((rb.write data len).2).size = rb.capacity := by
  have hvv := hv
  obtain ⟨hbl, hsz, hh, ht, hht⟩ := hvv
  by_cases hl0 : len = 0
  · subst hl0
    have hw : rb.write data 0 = (0, rb) := rfl
    rw [hw]
    have hsc : rb.size = rb.capacity := by omega
    refine ⟨?_, hsc⟩
    rw [hht, hsc, Nat.add_mod_right]
    exact Nat.mod_eq_of_lt ht
  by_cases hb0 : min len (rb.capacity - rb.size) = 0
  · have hsc : rb.size = rb.capacity := by omega
    have hw : rb.write data len = (0, rb) := by
      simp only [RingBuffer.write, if_neg hl0, if_pos hb0]
    rw [hw]
    refine ⟨?_, hsc⟩
    rw [hht, hsc, Nat.add_mod_right]
    exact Nat.mod_eq_of_lt ht
  · simp only [RingBuffer.write, if_neg hl0, if_neg hb0]
    have hbtw : min len (rb.capacity - rb.size) = rb.capacity - rb.size := by omega
    constructor
    · rw [hbtw, hht, Nat.mod_add_mod]
      have harg : rb.tail + rb.size + (rb.capacity - rb.size) = rb.tail + rb.capacity := by
        omega
      rw [harg, Nat.add_mod_right]
      exact Nat.mod_eq_of_lt ht
    · rw [hbtw]
      omega

/-! ## The claims -/

/-- C1: REFUTED by the code, supporting the spec against the implementation.
In `src/conveyor.cpp`, `conveyor_flush` waits on `write_cv_producer` with
the predicate `write_buffer.empty()`, and `ConveyorImpl::writeWorker`
empties the ring into its local `temp_flush_buffer` and notifies that
condition variable *before* calling `ops.write`.  The interleaving below —
a `FlushStep` chain justified line by line by the source — reaches a state
in which `conveyor_flush` has returned 0, one byte was accepted by
`conveyor_write`, and the backing store has received nothing.  This
contradicts the claim that when `conveyor_flush` returns 0 every accepted
byte has already been delivered. -/
theorem flush_returns_before_delivery :
    Relation.ReflTransGen FlushStep flushInit flushBad ∧
    flushBad.flushReturned = true ∧ flushBad.accepted = [7] ∧ flushBad.storage = [] := by
  refine ⟨?_, rfl, rfl, rfl⟩
  refine Relation.ReflTransGen.head (FlushStep.clientWrite flushInit [7]) ?_
  refine Relation.ReflTransGen.head (FlushStep.flushCall _ (by decide)) ?_
  refine Relation.ReflTransGen.head (FlushStep.workerDrain _ (by decide) (by decide)) ?_
  exact Relation.ReflTransGen.single (FlushStep.flushReturn _ (by decide) (by decide))

/-- C2: REFUTED by the code, supporting the spec against the implementation.
`conveyor_lseek` in `src/conveyor.cpp` performs no flush: on a successful
backing-store seek it *clears* the write ring.  In the run below a byte is
accepted by `conveyor_write` (return 1, ring size 1, nothing on the backing
store yet), then `conveyor_lseek(0, SEEK_SET)` succeeds, empties the ring,
and the backing store still holds nothing — even after a subsequent
`conveyor_flush` the byte is gone, so the seek discarded accepted data. -/
theorem lseek_discards_pending_write :
    seekRunWrite.1 = 1 ∧
    seekRunWrite.2.1.write_buffer.size = 1 ∧
    seekRunWrite.2.2.1 = [] ∧
    seekRunSeek.1 = 0 ∧
    seekRunSeek.2.1.write_buffer.size = 0 ∧
    seekRunSeek.2.2.1 = [] ∧
    seekRunFlush.1 = 0 ∧
    seekRunFlush.2.2.1 = [] := by
  decide

/-- C3: REFUTED by the code, supporting the spec against the implementation.
With a write-latency-free model of the worker *not* running (the worker
thread need not be scheduled between the calls), `conveyor_write [5,6,7]`
returns 3, `conveyor_lseek(0, SEEK_SET)` clears the write ring, and
`conveyor_read` of 3 bytes hits EOF on the empty backing store and returns
0 with no bytes — not 3 bytes equal to the source.  `src/conveyor.cpp` has
no snoop layer, so the claimed write→seek→read round trip fails. -/
theorem write_seek_read_drops_data :
    rawRunWrite.1 = 3 ∧ rawRunRead.1 = 0 ∧ rawRunRead.2.1 = [] := by
  decide

/-- C4: REFUTED by the code, supporting the spec against the implementation.
`src/conveyor.cpp` records no error state: `writeWorker` ignores a −1
(`EIO`) return from `ops.write` (it only advances the position on a
positive return).  After the failed backing-store write, a further
`conveyor_write` returns 2, `conveyor_flush` returns 0, `conveyor_lseek`
returns the new offset and `conveyor_read` returns 0 — none of them fails
with −1/`EIO` as the claim requires. -/
theorem no_sticky_error_after_eio :
    (eioOps.write () [1, 2]).1 = -1 ∧
    eioRunWrite1.1 = 2 ∧
    eioRunWrite2.1 = 2 ∧
    eioRunFlush.1 = 0 ∧
    eioRunLseek.1 = 5 ∧
    eioRunRead.1 = 0 := by
  decide

/-- C5: REFUTED by the code, supporting the spec against the implementation.
`conveyor_create` computes `write_buffer_enabled`/`read_buffer_enabled`
solely from `flags & O_ACCMODE`; a zero initial capacity does not disable a
direction.  With `O_RDWR` and both capacities 0, both directions come up
enabled over zero-capacity rings (on which the producer loop of
`conveyor_write` can never find space). -/
theorem zero_capacity_still_enabled :
    (conveyor_create 2 0 0).write_buffer_enabled = true ∧
    (conveyor_create 2 0 0).read_buffer_enabled = true ∧
    (conveyor_create 2 0 0).write_buffer.capacity = 0 ∧
    (conveyor_create 2 0 0).read_buffer.capacity = 0 := by
  decide

/-- C6: REFUTED by the code, supporting the spec against the implementation.
`conveyor_write` in `src/conveyor.cpp` has no length check: a request of 5
bytes against a 4-byte ring simply loops, letting the worker drain between
chunks, accepts all 5 bytes (return value 5) and, after a flush, all 5
bytes are on the backing store — no message-too-long failure and full
progress, where the claim requires failure with no partial progress. -/
theorem oversized_write_fully_accepted :
    (conveyor_create 2 4 8).write_buffer.capacity = 4 ∧
    bigRunWrite.1 = 5 ∧
    bigRunFlush.2.2.1 = [1, 2, 3, 4, 5] := by
  decide

/-- C9 counterexample: the success test in `conveyor_lseek` is
`new_pos != LIBCONVEYOR_ERROR`, i.e. `new_pos != -1`.  A backing-store
`lseek` returning the *negative* value −2 therefore takes the success path:
the write ring (holding one accepted byte) is cleared and both tracked
offsets are set to −2 — the state is mutated, refuting the claim for
arbitrary negative returns. -/
theorem lseek_negative_result_mutates_state :
    negRunSeek.1 = -2 ∧
    negRunWrite.2.1.write_buffer.size = 1 ∧
    negRunSeek.2.1.write_buffer.size = 0 ∧
    negRunSeek.2.1.current_file_offset = -2 := by
  decide

/-- C9 (amended): whenever the backing-store lseek callback returns exactly
−1 (`LIBCONVEYOR_ERROR`), `conveyor_lseek` returns −1 and leaves the entire
engine state — both ring buffers, the stale and EOF flags, the logical file
offset and the stored storage position — unchanged.  (The original claim
said this held for every negative return value;
`lseek_negative_result_mutates_state` shows −2 mutates the state.) -/
theorem lseek_error_frame {σ : Type} (ops : StorageOps σ) (st : ConveyorState) (s : σ)
    (offset : Int) (whence : Nat) (h : (ops.lseek s offset whence).1 = -1) :
    conveyor_lseek ops st s offset whence = (-1, st, (ops.lseek s offset whence).2) := by
  unfold conveyor_lseek
  rcases hls : ops.lseek s offset whence with ⟨np, s2⟩
  rw [hls] at h
  simp only at h
  subst h
  simp

/-- Witness for C9 (amended): a concrete engine and a callback returning −1;
the engine state after `conveyor_lseek` is exactly the state before. -/
theorem lseek_error_frame_spot :
    (failSeekOps.lseek () 0 0).1 = -1 ∧
    conveyor_lseek failSeekOps (conveyor_create 2 4 4) () 0 0
      = (-1, conveyor_create 2 4 4, ()) :=
  ⟨rfl, lseek_error_frame failSeekOps (conveyor_create 2 4 4) () 0 0 rfl⟩

/-- C7: on a valid ring buffer of capacity ≥ 1, a growing
`resize(new_capacity)` preserves the logical byte sequence (both as the
contents and as the result of reading `size` bytes) and afterwards
`tail = 0`, `head = size`, `capacity = new_capacity`; a non-growing call
leaves the buffer bit-for-bit unchanged. -/
theorem resize_round_trip (rb : RingBuffer) (nc : Nat)
    (hv : rb.Valid) (hc : 1 ≤ rb.capacity) :
    (rb.capacity < nc →
      (rb.resize nc).contents = rb.contents ∧
      ((rb.resize nc).read rb.size).1 = (rb.read rb.size).1 ∧
      (rb.resize nc).tail = 0 ∧
      (rb.resize nc).head = rb.size ∧
      (rb.resize nc).capacity = nc ∧
      (rb.resize nc).size = rb.size) ∧
    (nc ≤ rb.capacity → rb.resize nc = rb) := by
  refine ⟨fun hgrow => ?_, fun hle => ring_resize_noop rb nc hle⟩
  have hcont := ring_resize_contents rb nc hv hgrow
  have hval := ring_resize_valid rb nc hv
  have hfields : (rb.resize nc).tail = 0 ∧ (rb.resize nc).head = rb.size ∧
      (rb.resize nc).capacity = nc ∧ (rb.resize nc).size = rb.size := by
    unfold RingBuffer.resize
    rw [if_neg (by omega)]
    exact ⟨rfl, rfl, rfl, rfl⟩
  refine ⟨hcont, ?_, hfields.1, hfields.2.1, hfields.2.2.1, hfields.2.2.2⟩
  have h1 := (ring_read_result (rb.resize nc) rb.size hval).1
  have h2 := (ring_read_result rb rb.size hv).1
  rw [h1, h2, hcont, hfields.2.2.2]

/-- Witness for C7 at a concrete wrapped buffer and both a growing and a
non-growing new capacity. -/
theorem resize_round_trip_spot :
    sampleRing.Valid ∧ 1 ≤ sampleRing.capacity ∧
    ((sampleRing.capacity < 6 →
      (sampleRing.resize 6).contents = sampleRing.contents ∧
      ((sampleRing.resize 6).read sampleRing.size).1 = (sampleRing.read sampleRing.size).1 ∧
      (sampleRing.resize 6).tail = 0 ∧
      (sampleRing.resize 6).head = sampleRing.size ∧
      (sampleRing.resize 6).capacity = 6 ∧
      (sampleRing.resize 6).size = sampleRing.size) ∧
     (6 ≤ sampleRing.capacity → sampleRing.resize 6 = sampleRing)) :=
  ⟨by decide, by decide, resize_round_trip sampleRing 6 (by decide) (by decide)⟩

/-- C8: on a valid buffer of capacity ≥ 1, `write`, `read`, `clear` and
`resize` all re-establish the structural invariant (sizes and indices in
range, `head` placed `size` after `tail` mod capacity — i.e. the logical
bytes occupy `[tail, tail+size) mod capacity`); `write` appends exactly its
accepted bytes to those contents; and an append that exactly fills the
buffer leaves `head = tail` with `size = capacity`. -/
theorem ring_ops_invariant (rb : RingBuffer) (data : List Nat) (len nc : Nat)
    (hv : rb.Valid) (hc : 1 ≤ rb.capacity) :
    ((rb.write data len).2).Valid ∧
    ((rb.read len).2).Valid ∧
    rb.clear.Valid ∧
    (rb.resize nc).Valid ∧
    (min len (rb.capacity - rb.size) ≤ data.length →
      ((rb.write data len).2).contents
        = rb.contents ++ data.take (min len (rb.capacity - rb.size))) ∧
    (rb.capacity - rb.size ≤ len →
      ((rb.write data len).2).head = ((rb.write data len).2).tail ∧
      ((rb.write data len).2).size = rb.capacity) :=
  ⟨ring_write_valid rb data len hv, ring_read_valid rb len hv,
    ring_clear_valid rb hv.1 hc, ring_resize_valid rb nc hv,
    fun hd => ring_write_contents rb data len hv hd,
    fun hf => ring_write_fill rb data len hv hf⟩

/-- Witness for C8 at a concrete wrapped buffer, a write that exactly fills
it, a read, a clear and a resize. -/
theorem ring_ops_invariant_spot :
    sampleRing.Valid ∧ 1 ≤ sampleRing.capacity ∧
    (((sampleRing.write [9, 9, 9] 3).2).Valid ∧
     ((sampleRing.read 3).2).Valid ∧
     sampleRing.clear.Valid ∧
     (sampleRing.resize 6).Valid ∧
     (min 3 (sampleRing.capacity - sampleRing.size) ≤ ([9, 9, 9] : List Nat).length →
       ((sampleRing.write [9, 9, 9] 3).2).contents
         = sampleRing.contents ++ ([9, 9, 9] : List Nat).take
             (min 3 (sampleRing.capacity - sampleRing.size))) ∧
     (sampleRing.capacity - sampleRing.size ≤ 3 →
       ((sampleRing.write [9, 9, 9] 3).2).head = ((sampleRing.write [9, 9, 9] 3).2).tail ∧
       ((sampleRing.write [9, 9, 9] 3).2).size = sampleRing.capacity)) :=
  ⟨by decide, by decide, ring_ops_invariant sampleRing [9, 9, 9] 3 6 (by decide) (by decide)⟩

/-- C10: for `len ≤ capacity` on a buffer whose region length matches its
capacity ≥ 1, `peek_at(pos, dst, len)` returns `len`, writes exactly `len`
bytes into `dst` (byte `i` comes from index `(pos mod capacity + i) mod
capacity`, so the read wraps at most once), and every index it reads is
inside the region; `head`, `tail` and `size` are untouched because the
method is `const` (the model returns no buffer state). -/
theorem peek_at_in_bounds (rb : RingBuffer) (pos len : Nat)
    (hc : 1 ≤ rb.capacity) (hlen : len ≤ rb.capacity)
    (hbuf : rb.buffer.length = rb.capacity) :
    (rb.peek_at pos len).2 = len ∧
    (rb.peek_at pos len).1.length = len ∧
    (rb.peek_at pos len).1
      = (List.range len).map
          (fun i => rb.buffer.getD ((pos % rb.capacity + i) % rb.capacity) 0) ∧
    (∀ i, i < len → (pos % rb.capacity + i) % rb.capacity < rb.capacity) := by
  obtain ⟨h2, h1⟩ := peek_at_result rb pos len hc hlen hbuf
  refine ⟨h2, ?_, h1, fun i _ => Nat.mod_lt _ (by omega)⟩
  rw [h1]
  simp

/-- Witness for C10 at a concrete buffer, a wrapping position and the full
capacity as length. -/
theorem peek_at_in_bounds_spot :
    1 ≤ sampleRing.capacity ∧ 4 ≤ sampleRing.capacity ∧
    sampleRing.buffer.length = sampleRing.capacity ∧
    ((sampleRing.peek_at 7 4).2 = 4 ∧
     (sampleRing.peek_at 7 4).1.length = 4 ∧
     (sampleRing.peek_at 7 4).1
       = (List.range 4).map
           (fun i => sampleRing.buffer.getD ((7 % sampleRing.capacity + i) % sampleRing.capacity) 0) ∧
     (∀ i, i < 4 → (7 % sampleRing.capacity + i) % sampleRing.capacity < sampleRing.capacity)) :=
  ⟨by decide, by decide, by decide, peek_at_in_bounds sampleRing 7 4 (by decide) (by decide) (by decide)⟩

end Conveyor
